import Mathlib

/-!
Shallow embedding of the core logic of `src/lib.js` (the extension
installer/manager): the action queue, the bulk-update scheduler, the
self-update dispatch, the session/status policy, peer-dependency recovery,
the backup ignore-path resolver, name derivation from repository URLs,
the npm update-query fallback, uninstall bookkeeping and the idleness query.

JavaScript objects used as ordered maps are embedded as association lists
ordered by key insertion; `delete` removes the pair, assignment to an
existing key updates it in place, assignment to a fresh key appends.
-/

/-! ## Constants from the source -/

def SYSTEM_NAME : String := "System"

def UPDATER_NAME : String := "roon-extension-manager-updater"

def MANAGER_NAME : String := "roon-extension-manager"

def REPOS_NAME : String := "roon-extension-repository"

def ACTION_INSTALL : Nat := 1

def ACTION_UPDATE : Nat := 2

def ACTION_UNINSTALL : Nat := 3

def perform_update : Nat := 66

def perform_restart : Nat := 67

/-! ## Action queue (`action_queue`, `_queue_action`, `_remove_action`,
`_perform_action`) -/

/-- Payload stored in `action_queue[name]` (`action_props` in the source);
only the fields the embedded claims inspect are kept. -/
structure ActionProps where
  action : Nat
  url : Option String
  deriving Repr, DecidableEq

def mkAction (a : Nat) : ActionProps := ⟨a, none⟩

/-- The ordered map `action_queue`: key-insertion-ordered association list. -/
abbrev Queue := List (String × ActionProps)

/-- JS truthiness test `action_queue[name]` (stored values are objects,
hence truthy whenever the key is present). -/
def hasAction (q : Queue) (name : String) : Bool :=
  q.any (fun e => e.1 == name)

/-- Embeds `_queue_action`: no-op when an entry for `name` exists, otherwise
append; the returned flag records whether `_perform_action` was invoked,
which happens exactly when the insertion made the queue length 1. -/
def queue_action (q : Queue) (name : String) (props : ActionProps) : Queue × Bool :=
  if hasAction q name then (q, false)
  else (q ++ [(name, props)], q.isEmpty)

/-- Embeds the `delete action_queue[name]` of `_remove_action`. -/
def remove_action (q : Queue) (name : String) : Queue :=
  q.filter (fun e => !(e.1 == name))

/-- Embeds the entry selection of `_perform_action`:
`Object.keys(action_queue)[0]`, i.e. the first entry in insertion order;
`none` when the queue is empty (nothing dispatched). -/
def perform_action (q : Queue) : Option (String × ActionProps) :=
  q.head?

theorem hasAction_eq_false_iff (q : Queue) (name : String) :
    hasAction q name = false ↔ name ∉ q.map Prod.fst := by
  rw [← Bool.not_eq_true]
  simp only [hasAction, List.any_eq_true, beq_iff_eq, List.mem_map, not_exists]

theorem hasAction_eq_true_iff (q : Queue) (name : String) :
    hasAction q name = true ↔ name ∈ q.map Prod.fst := by
  rcases h : hasAction q name with _ | _
  · simp only [Bool.false_eq_true, false_iff]
    exact (hasAction_eq_false_iff q name).mp h
  · simp only [true_iff]
    by_contra hmem
    rw [← hasAction_eq_false_iff q name] at hmem
    rw [h] at hmem
    exact Bool.true_eq_false.mp hmem

/-- C1: the action queue holds at most one pending entry per name: enqueuing
a name that already has a pending entry leaves the queue (entries and order)
unchanged and dispatches nothing; an enqueue into an empty queue inserts the
entry and dispatches immediately; both enqueue and removal preserve key
uniqueness; and the dispatched job, when one exists, is exactly the first
entry in insertion order, so at most one job is in flight. -/
theorem queue_action_single_pending (q : Queue) (name : String) (props : ActionProps) :
    (hasAction q name = true → queue_action q name props = (q, false)) ∧
    (q = [] → queue_action q name props = ([(name, props)], true)) ∧
    ((q.map Prod.fst).Nodup → hasAction q name = false →
      ((queue_action q name props).1.map Prod.fst).Nodup) ∧
    ((q.map Prod.fst).Nodup → ((remove_action q name).map Prod.fst).Nodup) ∧
    perform_action q = q.head? := by
  refine ⟨?_, ?_, ?_, ?_, rfl⟩
  · intro h
    simp [queue_action, h]
  · intro h
    subst h
    simp [queue_action, hasAction]
  · intro hnd h
    have hmem := (hasAction_eq_false_iff q name).mp h
    simp only [queue_action, h, Bool.false_eq_true, if_false]
    simp only [List.map_append, List.map_cons, List.map_nil]
    rw [List.nodup_append]
    refine ⟨hnd, List.nodup_singleton name, ?_⟩
    intro a ha hb
    simp only [List.mem_singleton] at hb
    subst hb
    exact hmem ha
  · intro hnd
    have : (remove_action q name).map Prod.fst = (q.map Prod.fst).filter (fun s => !(s == name)) := by
      simp [remove_action, List.filter_map]
      rfl
    rw [this]
    exact hnd.filter _

/-- Witness for C1 at concrete inputs. -/
theorem queue_action_single_pending_witness :
    queue_action [("a", mkAction ACTION_INSTALL)] "a" (mkAction ACTION_UPDATE) =
      ([("a", mkAction ACTION_INSTALL)], false) ∧
    queue_action [] "b" (mkAction ACTION_UPDATE) = ([("b", mkAction ACTION_UPDATE)], true) := by
  have h := queue_action_single_pending [("a", mkAction ACTION_INSTALL)] "a" (mkAction ACTION_UPDATE)
  have h2 := queue_action_single_pending ([] : Queue) "b" (mkAction ACTION_UPDATE)
  exact ⟨h.1 (by decide), h2.2.1 rfl⟩

/-! ## Bulk update enqueueing (`_queue_updates`) -/

def updateProps : ActionProps := mkAction ACTION_UPDATE

/-- One iteration of the `for (const name in updates)` loop of
`_queue_updates`: the manager's own name only raises `self_update_pending`,
every other advertised name is enqueued as an Update job. -/
def queue_updates_step (acc : Queue × Bool) (n : String) : Queue × Bool :=
  if n = MANAGER_NAME then (acc.1, true)
  else ((queue_action acc.1 n updateProps).1, acc.2)

/-- The tail of `_queue_updates`: when `self_update_pending` was raised,
enqueue the updater (when a runner is active and `updates_list` marks the
updater) and then the manager. -/
def queue_updates_finish (loop : Queue × Bool) (hasUpd runner : Bool) : Queue × Bool :=
  if loop.2 then
    ((queue_action
        (if runner && hasUpd then (queue_action loop.1 UPDATER_NAME updateProps).1 else loop.1)
        MANAGER_NAME updateProps).1, true)
  else loop

/-- Embeds `_queue_updates`: `updates` carries the advertised names in
object-key order, `hasUpd` the truthiness of `updates_list[UPDATER_NAME]`,
`runner` whether a process runner is active, `q` the current action queue
and `sup` the incoming `self_update_pending` flag. Returns the new queue
and the new `self_update_pending`. -/
def queue_updates (updates : List String) (hasUpd runner : Bool)
    (q : Queue) (sup : Bool) : Queue × Bool :=
  if updates.isEmpty then (q, sup)
  else queue_updates_finish (updates.foldl queue_updates_step (q, sup)) hasUpd runner

theorem hasAction_append (q1 q2 : Queue) (n : String) :
    hasAction (q1 ++ q2) n = (hasAction q1 n || hasAction q2 n) := by
  simp [hasAction, List.any_append]

theorem hasAction_map_mk (ns : List String) (x : String) (p : ActionProps) :
    hasAction (ns.map (fun n => (n, p))) x = true ↔ x ∈ ns := by
  rw [hasAction_eq_true_iff]
  simp [List.map_map, Function.comp]

theorem foldl_queue_updates_step (ns : List String) (q : Queue) (s : Bool)
    (hnd : ns.Nodup) (hdisj : ∀ n ∈ ns, hasAction q n = false) :
    ns.foldl queue_updates_step (q, s) =
      (q ++ (ns.filter (fun n => n != MANAGER_NAME)).map (fun n => (n, updateProps)),
       s || ns.contains MANAGER_NAME) := by
  induction ns generalizing q s with
  | nil => simp
  | cons n rest ih =>
    rcases List.nodup_cons.mp hnd with ⟨hn, hndr⟩
    by_cases hM : n = MANAGER_NAME
    · subst hM
      have step : queue_updates_step (q, s) MANAGER_NAME = (q, true) := by
        simp [queue_updates_step]
      simp only [List.foldl_cons, step]
      rw [ih q true hndr (fun m hm => hdisj m (List.mem_cons_of_mem _ hm))]
      simp
    · have hq : hasAction q n = false := hdisj n (List.mem_cons_self _ _)
      have step : queue_updates_step (q, s) n = (q ++ [(n, updateProps)], s) := by
        simp [queue_updates_step, hM, queue_action, hq]
      simp only [List.foldl_cons, step]
      rw [ih (q ++ [(n, updateProps)]) s hndr ?_]
      · have hfil : (n :: rest).filter (fun m => m != MANAGER_NAME) =
            n :: rest.filter (fun m => m != MANAGER_NAME) := by
          simp [List.filter_cons, hM]
        have hcon : (n :: rest).contains MANAGER_NAME = rest.contains MANAGER_NAME := by
          simp only [List.contains_cons, Bool.or_eq_true]
          rcases h : rest.contains MANAGER_NAME with _ | _
          · simp only [Bool.or_false]
            exact beq_eq_false_iff_ne.mpr (fun h2 => hM h2.symm)
          · simp
        rw [hfil, hcon]
        simp
      · intro m hm
        have hqm := hdisj m (List.mem_cons_of_mem _ hm)
        have hmn : m ≠ n := fun h => hn (h ▸ hm)
        rw [hasAction_append, hqm]
        simp [hasAction, hmn.symm]

/-- Counterexample to C2: when the updater's own name appears in the
advertisement map before a sibling, the loop enqueues it at its advertised
position, so the dispatch order is updater-first, not siblings-first as the
claim requires. -/
theorem queue_updates_counterexample :
    ((queue_updates [UPDATER_NAME, "a", MANAGER_NAME] true true [] false).1.map Prod.fst =
      [UPDATER_NAME, "a", MANAGER_NAME]) ∧
    ([UPDATER_NAME, "a", MANAGER_NAME] : List String) ≠ ["a", UPDATER_NAME, MANAGER_NAME] := by
  exact ⟨by decide, by decide⟩

/-- C2 (amended): starting from an empty queue with no self-update pending,
`_queue_updates` enqueues an Update job for every advertised name except the
manager, in advertisement order — the updater, when it appears in the
advertisement map, is enqueued at its own advertised position; when the
manager is advertised, the updater is additionally appended after the
siblings only if a runner is active, `updates_list` marks the updater and
the updater was not already advertised, and the manager is appended last. -/
theorem queue_updates_order (names : List String) (hasUpd runner : Bool)
    (hnd : names.Nodup) :
    (queue_updates names hasUpd runner [] false).1 =
      ((names.filter (fun n => n != MANAGER_NAME)) ++
        (if MANAGER_NAME ∈ names then
          (if runner = true ∧ hasUpd = true ∧ UPDATER_NAME ∉ names
           then [UPDATER_NAME] else []) ++ [MANAGER_NAME]
         else [])).map (fun n => (n, updateProps)) := by
  by_cases hempty : names.isEmpty
  · rw [List.isEmpty_iff] at hempty
    subst hempty
    simp [queue_updates]
  · have hloop := foldl_queue_updates_step names [] false hnd (fun n _ => by simp [hasAction])
    rw [queue_updates, if_neg hempty, hloop]
    have hUM : UPDATER_NAME ≠ MANAGER_NAME := by decide
    by_cases hM : MANAGER_NAME ∈ names
    · have hcon : names.contains MANAGER_NAME = true := List.elem_iff.mpr hM
      rw [if_pos hM]
      have hsibM : hasAction
          ((names.filter (fun n => n != MANAGER_NAME)).map (fun n => (n, updateProps)))
          MANAGER_NAME = false := by
        rw [← Bool.not_eq_true, hasAction_map_mk]
        intro hmem
        have := List.of_mem_filter hmem
        simp at this
      by_cases hru : runner = true ∧ hasUpd = true
      · by_cases hU : UPDATER_NAME ∈ names
        · have hsibU : hasAction
              ((names.filter (fun n => n != MANAGER_NAME)).map (fun n => (n, updateProps)))
              UPDATER_NAME = true := by
            rw [hasAction_map_mk]
            exact List.mem_filter.mpr ⟨hU, by simp [hUM]⟩
          simp only [queue_updates_finish, hcon, Bool.false_or, if_true, hru.1, hru.2,
            Bool.and_self, List.nil_append, queue_action, hsibU, Bool.true_eq_false,
            if_true, hsibM, Bool.false_eq_true, if_false]
          simp [hU, List.map_append]
        · have hsibU : hasAction
              ((names.filter (fun n => n != MANAGER_NAME)).map (fun n => (n, updateProps)))
              UPDATER_NAME = false := by
            rw [← Bool.not_eq_true, hasAction_map_mk]
            intro hmem
            exact hU (List.mem_of_mem_filter hmem)
          have hM2 : hasAction
              ((names.filter (fun n => n != MANAGER_NAME)).map (fun n => (n, updateProps)) ++
                [(UPDATER_NAME, updateProps)]) MANAGER_NAME = false := by
            rw [hasAction_append, hsibM]
            simp [hasAction, hUM]
          simp only [queue_updates_finish, hcon, Bool.false_or, if_true, hru.1, hru.2,
            Bool.and_self, List.nil_append, queue_action, hsibU, Bool.false_eq_true,
            if_false, hM2]
          simp [hU, List.map_append]
      · have hru' : (runner && hasUpd) = false := by
          rcases hr : runner with _ | _
          · simp
          · rcases hh : hasUpd with _ | _
            · simp
            · exact absurd ⟨hr, hh⟩ hru
        have : ¬(runner = true ∧ hasUpd = true ∧ UPDATER_NAME ∉ names) := by
          intro h
          exact hru ⟨h.1, h.2.1⟩
        simp only [queue_updates_finish, hcon, Bool.false_or, if_true, hru',
          Bool.false_eq_true, if_false, List.nil_append, queue_action, hsibM]
        rw [if_neg this]
        simp [List.map_append]
    · have hcon : names.contains MANAGER_NAME = false := by
        rw [← Bool.not_eq_true]
        intro h
        exact hM (List.elem_iff.mp h)
      simp [queue_updates_finish, hcon, hM]

/-- Witness for C2 (amended) at the spec's example advertisement. -/
theorem queue_updates_order_witness :
    (queue_updates ["a", "b", MANAGER_NAME] true true [] false).1 =
      (["a", "b", UPDATER_NAME, MANAGER_NAME]).map (fun n => (n, updateProps)) := by
  have h := queue_updates_order ["a", "b", MANAGER_NAME] true true (by decide)
  rw [h]
  decide
/-! ## Update dispatch and self-update
(`_update`, `_exit_for_update`, `_terminate`) -/

/-- Observable effect of dispatching an Update job in `_update`. -/
inductive UpdateEffect where
  | exitProcess (code : Nat) (loggingFlushed : Bool)
  | npmUpdateCmd (name : String)
  | dockerUpdateCmd (name : String)
  | noEffect
  deriving Repr, DecidableEq

/-- Embeds `_update`: with a runner active and the manager as target,
`_stop` hands control to `_exit_for_update`, i.e. `_terminate(perform_update)`,
which writes the logging-name list to `logging.json` exactly when
`logging_active` holds and then exits the process with code 66
(`perform_update`); otherwise the npm branch runs `npm update -g <name>`
for npm-installed targets and `docker.update` for container targets. -/
def update_dispatch (runner loggingActive : Bool)
    (npmInstalled dockerInstalled : String → Bool) (name : Option String) : UpdateEffect :=
  match name with
  | none => UpdateEffect.noEffect
  | some n =>
    if runner && (n == MANAGER_NAME) then UpdateEffect.exitProcess perform_update loggingActive
    else if npmInstalled n then UpdateEffect.npmUpdateCmd n
    else if dockerInstalled n then UpdateEffect.dockerUpdateCmd n
    else UpdateEffect.noEffect

/-- Counterexample to C3: without an active runner (`use_runner` not set),
the manager's own Update job falls through to the ordinary npm branch and
the core does invoke the package backend's update command for the manager. -/
theorem update_dispatch_counterexample :
    update_dispatch false false (fun n => n == MANAGER_NAME) (fun _ => false)
      (some MANAGER_NAME) = UpdateEffect.npmUpdateCmd MANAGER_NAME := by
  decide

/-- C3 (amended): whenever a runner is active, dispatching an Update job
targeting the manager itself never invokes any backend update command; the
job ends in process exit carrying the reserved code 66 (`perform_update`),
with the logging-name list flushed to durable storage exactly when logging
is active. -/
theorem update_dispatch_self (loggingActive : Bool)
    (npmInstalled dockerInstalled : String → Bool) :
    update_dispatch true loggingActive npmInstalled dockerInstalled (some MANAGER_NAME) =
      UpdateEffect.exitProcess 66 loggingActive ∧ perform_update = 66 := by
  constructor
  · simp [update_dispatch, perform_update]
  · rfl

/-! ## Session/status policy (`_set_status`, `_register_version`,
`_unregister_version`, `_perform_action`) -/

/-- Session and notification counters: `sessionError` is the tri-state
`session_error` variable (`none` embeds JS `undefined`), `extErrors` counts
error messages delivered to the external `status_cb`, `logErrors` counts
error messages written to the internal log (`console.error`, which receives
every error unconditionally). -/
structure SessionSt where
  sessionError : Option Bool
  extErrors : Nat
  logErrors : Nat
  deriving Repr, DecidableEq

/-- Embeds `_set_status`: every error is logged internally; the external
callback fires unless `session_error` is exactly `true` (so we count an
external error notification when `isError` holds and `session_error ≠ true`);
an error arriving while `session_error` is exactly `false` flips it to
`true`. -/
def set_status (isError : Bool) (s : SessionSt) : SessionSt :=
  let s1 := if isError then { s with logErrors := s.logErrors + 1 } else s
  let s2 := if s1.sessionError ≠ some true ∧ isError = true then
      { s1 with extErrors := s1.extErrors + 1 } else s1
  if s2.sessionError = some false ∧ isError = true then
    { s2 with sessionError := some true } else s2

/-- Embeds the session bookkeeping of `_perform_action`: when the queue is
non-empty, `session_error` is set to `false` unless it is already `true`. -/
def session_on_dispatch (queueNonempty : Bool) (s : SessionSt) : SessionSt :=
  if queueNonempty then
    (if s.sessionError = some true then s else { s with sessionError := some false })
  else s

/-- Embeds one job-completion of `_register_version`/`_unregister_version`:
the final status report (`Installed:`/`... failed:`), then `_remove_action`
(which re-invokes `_perform_action` on the remaining queue), then the
unconditional `session_error = undefined` that closes the function. -/
def complete_job (fail : Bool) (queueNonempty : Bool) (s : SessionSt) : SessionSt :=
  let s1 := set_status fail s
  let s2 := session_on_dispatch queueNonempty s1
  { s2 with sessionError := none }

def run_jobs : List Bool → SessionSt → SessionSt
  | [], s => s
  | f :: rest, s => run_jobs rest (complete_job f (!rest.isEmpty) s)

/-- A batch of jobs enqueued together and processed to completion: the first
enqueue triggers `_perform_action` (opening a session), then each job
completes in order, with `fails` recording which jobs fail. -/
def run_batch (fails : List Bool) : SessionSt :=
  run_jobs fails (session_on_dispatch (!fails.isEmpty) ⟨none, 0, 0⟩)

/-- Counterexample to C4: in a batch of four jobs where jobs 2 and 4 fail,
both failures are delivered to the external status observer (not just the
first), because `_register_version` resets `session_error` to `undefined`
after every job completion, not only when the queue drains. -/
theorem run_batch_counterexample :
    (run_batch [false, true, false, true]).extErrors = 2 ∧
    (run_batch [false, true, false, true]).logErrors = 2 ∧ (2 : Nat) ≠ 1 := by
  exact ⟨by decide, by decide, by decide⟩

theorem session_on_dispatch_counts (b : Bool) (s : SessionSt) :
    (session_on_dispatch b s).extErrors = s.extErrors ∧
    (session_on_dispatch b s).logErrors = s.logErrors := by
  unfold session_on_dispatch
  split
  · split <;> simp
  · simp

theorem set_status_counts (isError : Bool) (s : SessionSt)
    (hs : s.sessionError ≠ some true) :
    (set_status isError s).extErrors = s.extErrors + (if isError then 1 else 0) ∧
    (set_status isError s).logErrors = s.logErrors + (if isError then 1 else 0) := by
  rcases hse : s.sessionError with _ | b
  · rcases isError with _ | _ <;> simp [set_status, hse]
  · rcases b with _ | _
    · rcases isError with _ | _ <;> simp [set_status, hse]
    · exact absurd hse hs

theorem complete_job_counts (f b : Bool) (s : SessionSt)
    (hs : s.sessionError ≠ some true) :
    (complete_job f b s).extErrors = s.extErrors + (if f then 1 else 0) ∧
    (complete_job f b s).logErrors = s.logErrors + (if f then 1 else 0) ∧
    (complete_job f b s).sessionError = none := by
  have h1 := set_status_counts f s hs
  have h2 := session_on_dispatch_counts b (set_status f s)
  have e1 : (complete_job f b s).extErrors =
      (session_on_dispatch b (set_status f s)).extErrors := rfl
  have e2 : (complete_job f b s).logErrors =
      (session_on_dispatch b (set_status f s)).logErrors := rfl
  exact ⟨by rw [e1, h2.1, h1.1], by rw [e2, h2.2, h1.2], rfl⟩

theorem run_jobs_counts (fails : List Bool) (s : SessionSt)
    (hs : s.sessionError ≠ some true) :
    (run_jobs fails s).extErrors = s.extErrors + fails.count true ∧
    (run_jobs fails s).logErrors = s.logErrors + fails.count true := by
  induction fails generalizing s with
  | nil => simp [run_jobs]
  | cons f rest ih =>
    have hc := complete_job_counts f (!rest.isEmpty) s hs
    have ihs := ih (complete_job f (!rest.isEmpty) s) (by rw [hc.2.2]; simp)
    simp only [run_jobs]
    constructor
    · rw [ihs.1, hc.1]
      rcases f with _ | _
      · simp [List.count_cons]
      · simp [List.count_cons]
        omega
    · rw [ihs.2, hc.2.1]
      rcases f with _ | _
      · simp [List.count_cons]
      · simp [List.count_cons]
        omega

/-- C4 (amended): every error is logged internally, and because
`session_error` is reset to `undefined` at every job completion, every
failing job in a batch delivers its completion error to the external status
observer: a batch whose jobs fail at `k` positions produces exactly `k`
externally observed error notifications and `k` internally logged failures
(the suppression scope is a single job, not the whole non-empty lifetime of
the queue). -/
theorem run_batch_error_counts (fails : List Bool) :
    (run_batch fails).extErrors = fails.count true ∧
    (run_batch fails).logErrors = fails.count true := by
  have hs : (session_on_dispatch (!fails.isEmpty) ⟨none, 0, 0⟩).sessionError ≠ some true := by
    rcases h : fails.isEmpty with _ | _ <;> simp [session_on_dispatch, h]
  have h := run_jobs_counts fails (session_on_dispatch (!fails.isEmpty) ⟨none, 0, 0⟩) hs
  have hcounts := session_on_dispatch_counts (!fails.isEmpty) ⟨none, 0, 0⟩
  rw [run_batch]
  constructor
  · rw [h.1, hcounts.1]
    simp
  · rw [h.2, hcounts.2]
    simp
/-! ## Peer-dependency recovery (`_install_peer_dependency`) -/

theorem remove_action_head (name : String) (props : ActionProps) (rest : Queue) :
    remove_action ((name, props) :: rest) name = remove_action rest name := by
  simp [remove_action]

theorem remove_action_of_not_has (q : Queue) (name : String)
    (h : hasAction q name = false) : remove_action q name = q := by
  rw [remove_action, List.filter_eq_self]
  intro e he
  rw [hasAction_eq_false_iff] at h
  have hne : e.1 ≠ name := fun he2 => h (he2 ▸ List.mem_map_of_mem Prod.fst he)
  simp [hne]

/-- Embeds the failure branch of `_install_peer_dependency`: when the
install of a peer dependency fails and the target is not the manager, the
target's pending action is removed (`_remove_action`) and an Uninstall
action for the same name is enqueued (`_queue_action`); the manager itself
is never converted. -/
def peer_dep_fail (q : Queue) (name : String) : Queue :=
  if name ≠ MANAGER_NAME then
    (queue_action (remove_action q name) name (mkAction ACTION_UNINSTALL)).1
  else q

/-- C5: when a peer-dependency install fails for a non-manager extension
whose job is in flight at the head of the queue, that job is replaced by an
Uninstall job of the same name: the original entry disappears, an Uninstall
entry for the name is enqueued, and all other queued entries are preserved
in order. -/
theorem peer_dep_fail_converts (rest : Queue) (name : String) (props : ActionProps)
    (hM : name ≠ MANAGER_NAME) (hrest : hasAction rest name = false) :
    peer_dep_fail ((name, props) :: rest) name =
      rest ++ [(name, mkAction ACTION_UNINSTALL)] := by
  rw [peer_dep_fail, if_pos hM, remove_action_head, remove_action_of_not_has rest name hrest,
    queue_action, hrest]
  simp

/-- Witness for C5: an in-flight Install of "x" with one sibling Update
queued becomes a queue of the sibling followed by Uninstall of "x". -/
theorem peer_dep_fail_converts_witness :
    peer_dep_fail [("x", mkAction ACTION_INSTALL), ("b", mkAction ACTION_UPDATE)] "x" =
      [("b", mkAction ACTION_UPDATE), ("x", mkAction ACTION_UNINSTALL)] := by
  exact peer_dep_fail_converts [("b", mkAction ACTION_UPDATE)] "x"
    (mkAction ACTION_INSTALL) (by decide) (by decide)

/-! ## Character-level string primitives

The source manipulates strings through JS index- and split-based
operations; they are embedded over the character list of a `String`. -/

/-- JS `s.split(sep)` for a single-character separator: splits at every
occurrence, keeping empty segments (`''.split(c)` is `['']`). -/
def jsSplitAux (sep : Char) : List Char → List Char → List String
  | [], acc => [String.mk acc.reverse]
  | c :: cs, acc =>
    if c = sep then String.mk acc.reverse :: jsSplitAux sep cs []
    else jsSplitAux sep cs (c :: acc)

def jsSplit (s : String) (sep : Char) : List String :=
  jsSplitAux sep s.toList []

/-- JS `s.trim()`: strip leading and trailing whitespace. -/
def jsTrim (s : String) : String :=
  String.mk (((s.toList.dropWhile Char.isWhitespace).reverse.dropWhile
    Char.isWhitespace).reverse)

/-- JS `s[0] == c` (false on the empty string, where `s[0]` is undefined). -/
def jsFirstCharIs (s : String) (c : Char) : Bool :=
  s.toList.head? == some c

/-- JS `s[s.length - 1] == c` (false on the empty string). -/
def jsLastCharIs (s : String) (c : Char) : Bool :=
  s.toList.getLast? == some c

/-- JS `s.substring(0, s.length - 1)`. -/
def jsDropLast (s : String) : String :=
  String.mk s.toList.dropLast

/-! ## Backup ignore-path resolution
(`_create_archive`, `_backup`, `_restore`) -/

/-- Trailing-slash strip of `_create_archive`: `line.substring(0,
line.length - 1)` when the last character is '/'. -/
def stripTrailingSlash (line : String) : String :=
  if jsLastCharIs line '/' then jsDropLast line else line

/-- Line normalisation of `_create_archive`: `lines[i].trim()` followed by
the trailing-slash strip. -/
def processIgnoreLine (l : String) : String := stripTrailingSlash (jsTrim l)

/-- Embeds the glob-collection loop of `_create_archive`: each line of the
ignore-file contents is normalised and kept when it is non-empty, not
`node_modules`, does not start with '#' and currently exists under the
working directory (`existsUnder` embeds `fs.existsSync(options.cwd + line)`). -/
def ignore_paths (data : String) (existsUnder : String → Bool) : List String :=
  ((jsSplit data '\n').map processIgnoreLine).filter (fun line =>
    line != "" && line != "node_modules" && !(jsFirstCharIs line '#') && existsUnder line)

/-- Result of the backup step around an update. -/
inductive BackupResult where
  | clean
  | archive (paths : List String)
  deriving Repr, DecidableEq

/-- Embeds the tail of `_create_archive`: `tar.create` runs only when the
collected glob list is non-empty; otherwise the callback reports a clean
working directory and no archive is created. -/
def create_archive (data : String) (existsUnder : String → Bool) : BackupResult :=
  if (ignore_paths data existsUnder).isEmpty then BackupResult.clean
  else BackupResult.archive (ignore_paths data existsUnder)

/-- Embeds `_backup`: a missing `.npmignore` file means the working
directory is treated as clean (no archive at all); otherwise
`_create_archive` runs on its contents. -/
def backup (npmignore : Option String) (existsUnder : String → Bool) : BackupResult :=
  match npmignore with
  | none => BackupResult.clean
  | some data => create_archive data existsUnder

/-- Embeds the restore wiring of `_update` and `_restore`: `_update` forwards
the tar options to the post-install pipeline only when `_backup` reported a
dirty directory (`clean ? undefined : options`), and `_restore` extracts the
archive exactly when options are present — so extraction happens iff an
archive was created. -/
def restore_extracts (b : BackupResult) : Bool :=
  match b with
  | BackupResult.clean => false
  | BackupResult.archive _ => true

/-- C6: the backup path list contains exactly the ignore-file lines that,
after trimming and trailing-slash stripping, are non-empty, are not
`node_modules`, do not start with '#', and currently exist under the working
directory; when that list is empty, or the extension has no ignore-file, no
archive is created and the subsequent restore is a no-op. -/
theorem ignore_paths_exact (data : String) (ex : String → Bool) :
    (∀ p, p ∈ ignore_paths data ex ↔
      ((∃ raw ∈ jsSplit data '\n', processIgnoreLine raw = p) ∧
        p ≠ "" ∧ p ≠ "node_modules" ∧ jsFirstCharIs p '#' = false ∧ ex p = true)) ∧
    (ignore_paths data ex = [] → create_archive data ex = BackupResult.clean) ∧
    backup none ex = BackupResult.clean ∧
    restore_extracts BackupResult.clean = false := by
  refine ⟨?_, ?_, rfl, rfl⟩
  · intro p
    simp only [ignore_paths, List.mem_filter, List.mem_map, Bool.and_eq_true, bne_iff_ne,
      ne_eq, Bool.not_eq_true']
    tauto
  · intro h
    rw [create_archive, h]
    simp

/-- Witness for C6: the spec's example ignore-file over a directory holding
only `data/` and `cache.db` yields exactly those two paths; an ignore-file
whose paths do not exist yields no archive. -/
theorem ignore_paths_exact_witness :
    ignore_paths "data/\ncache.db\n#comment\nnode_modules"
      (fun s => s == "data" || s == "cache.db") = ["data", "cache.db"] ∧
    create_archive "missing1/\nmissing2"
      (fun s => s == "data" || s == "cache.db") = BackupResult.clean := by
  constructor
  · decide
  · exact (ignore_paths_exact "missing1/\nmissing2"
      (fun s => s == "data" || s == "cache.db")).2.1 (by decide)
/-! ## Name derivation from repository URLs (`_get_name`, `_get_index_pair`) -/

theorem string_toList_append (s t : String) : (s ++ t).toList = s.toList ++ t.toList := by
  cases s
  cases t
  rfl

theorem string_mk_toList (s : String) : String.mk s.toList = s := rfl

theorem string_toList_mk (l : List Char) : (String.mk l).toList = l := rfl

theorem jsSplitAux_no_sep (sep : Char) (l acc : List Char) (h : sep ∉ l) :
    jsSplitAux sep l acc = [String.mk (acc.reverse ++ l)] := by
  induction l generalizing acc with
  | nil => simp [jsSplitAux]
  | cons c cs ih =>
    have hc : ¬(c = sep) := fun he => h (he ▸ List.mem_cons_self c cs)
    rw [jsSplitAux, if_neg hc, ih (c :: acc) (fun hm => h (List.mem_cons_of_mem c hm))]
    simp

theorem jsSplitAux_append (sep : Char) (l1 l2 acc : List Char) (h : sep ∉ l1) :
    jsSplitAux sep (l1 ++ sep :: l2) acc =
      String.mk (acc.reverse ++ l1) :: jsSplitAux sep l2 [] := by
  induction l1 generalizing acc with
  | nil => simp [jsSplitAux]
  | cons c cs ih =>
    have hc : ¬(c = sep) := fun he => h (he ▸ List.mem_cons_self c cs)
    rw [List.cons_append, jsSplitAux, if_neg hc,
      ih (c :: acc) (fun hm => h (List.mem_cons_of_mem c hm))]
    simp

theorem jsSplit_cons_of_toList (s : String) (l1 l2 : List Char) (sep : Char)
    (hs : s.toList = l1 ++ sep :: l2) (h1 : sep ∉ l1) :
    jsSplit s sep = String.mk l1 :: jsSplitAux sep l2 [] := by
  rw [jsSplit, hs, jsSplitAux_append sep l1 l2 [] h1]
  simp

/-- JS `s.indexOf(p) === 0`, i.e. `p` is a prefix of `s`. -/
def jsStartsWith (s p : String) : Bool := p.toList.isPrefixOf s.toList

/-- Result of `_get_name` on a repository URL: `ok slug` when a name is
produced, `noName` when the function returns `undefined`, `crash` when the
JS code calls a method on `undefined` (a `TypeError` escaping `_get_name`). -/
inductive NameResult where
  | ok (slug : String)
  | noName
  | crash
  deriving Repr, DecidableEq

/-- Embeds the repository branch of `_get_name`: split the URL on ':',
require element 0 to be `https`, split element 1 on '.', require element 2
to have `git` at index 0, split element 1 of that inner split on '/' and
take element 2 as the name. An out-of-range JS index yields `undefined`:
calling `.split` or `.indexOf` on it throws (`crash`), while the final
`name = substrings[2]` merely leaves the name `undefined` (`noName`). -/
def get_name_from_url (url : String) : NameResult :=
  if (jsSplit url ':').getD 0 "" == "https" then
    match (jsSplit url ':').get? 1 with
    | none => NameResult.crash
    | some rest =>
      match (jsSplit rest '.').get? 2 with
      | none => NameResult.crash
      | some third =>
        if jsStartsWith third "git" then
          match (jsSplit ((jsSplit rest '.').getD 1 "") '/').get? 2 with
          | some slug => NameResult.ok slug
          | none => NameResult.noName
        else NameResult.noName
  else NameResult.noName

/-- Embeds the `entry_name == name` comparison of the `_get_index_pair`
scan loop: an entry whose derivation produced no name (JS `undefined`)
compares unequal to every looked-up name string. -/
def nameMatches (r : NameResult) (name : String) : Bool :=
  match r with
  | NameResult.ok s => s == name
  | NameResult.noName => false
  | NameResult.crash => false

/-- Counterexample to C7: for the URL `https://localhost/owner/slug.git`,
which is of the claimed form `https://host/owner/slug.git`, the derivation
neither returns `slug` nor returns without a name: the host has no dot, so
the '.'-split of the post-scheme part has only two elements and
`substrings[2].indexOf` throws a TypeError. -/
theorem get_name_from_url_counterexample :
    get_name_from_url "https://localhost/owner/slug.git" = NameResult.crash ∧
    NameResult.crash ≠ NameResult.ok "slug" ∧
    NameResult.crash ≠ NameResult.noName := by
  exact ⟨by decide, by decide, by decide⟩

/-- C7 (amended): name derivation returns `slug` for URLs of the form
`https://host1.host2/owner/slug.git[suffix]` whose host contains exactly one
dot and whose components contain no further ':', '.' or '/'; a URL whose
post-scheme part has fewer than three dot-separated segments (for example a
dotless host) makes the derivation throw instead of returning no name; and
an entry whose derivation produced no usable name never matches any name
lookup in the catalog index scan. -/
theorem get_name_from_url_wellformed (h1 h2 owner slug suffix : String)
    (hc1 : ':' ∉ h1.toList) (hc2 : ':' ∉ h2.toList) (hc3 : ':' ∉ owner.toList)
    (hc4 : ':' ∉ slug.toList) (hc5 : ':' ∉ suffix.toList)
    (hd1 : '.' ∉ h1.toList) (hd2 : '.' ∉ h2.toList) (hd3 : '.' ∉ owner.toList)
    (hd4 : '.' ∉ slug.toList) (hd5 : '.' ∉ suffix.toList)
    (he2 : '/' ∉ h2.toList) (he3 : '/' ∉ owner.toList) (he4 : '/' ∉ slug.toList) :
    get_name_from_url ("https://" ++ h1 ++ "." ++ h2 ++ "/" ++ owner ++ "/" ++ slug
      ++ ".git" ++ suffix) = NameResult.ok slug ∧
    (∀ name, nameMatches NameResult.noName name = false) := by
  refine ⟨?_, fun name => rfl⟩
  have hurl : ("https://" ++ h1 ++ "." ++ h2 ++ "/" ++ owner ++ "/" ++ slug
      ++ ".git" ++ suffix).toList
      = ['h','t','t','p','s'] ++ ':' ::
        ('/' :: '/' :: h1.toList ++ '.' ::
          (h2.toList ++ '/' :: owner.toList ++ '/' :: slug.toList ++ '.' ::
            ('g' :: 'i' :: 't' :: suffix.toList))) := by
    simp [string_toList_append]
  have hnotin : ':' ∉ ('/' :: '/' :: h1.toList ++ '.' ::
      (h2.toList ++ '/' :: owner.toList ++ '/' :: slug.toList ++ '.' ::
        ('g' :: 'i' :: 't' :: suffix.toList))) := by
    simp [List.mem_append, List.mem_cons]
    exact ⟨hc1, hc2, hc3, hc4, hc5⟩
  have hss := jsSplit_cons_of_toList _ ['h','t','t','p','s']
    ('/' :: '/' :: h1.toList ++ '.' ::
      (h2.toList ++ '/' :: owner.toList ++ '/' :: slug.toList ++ '.' ::
        ('g' :: 'i' :: 't' :: suffix.toList))) ':' hurl (by decide)
  rw [jsSplitAux_no_sep ':' _ [] hnotin] at hss
  simp only [List.reverse_nil, List.nil_append] at hss
  have hmk : String.mk ['h','t','t','p','s'] = "https" := by decide
  rw [hmk] at hss
  have hps := jsSplit_cons_of_toList
    (String.mk ('/' :: '/' :: h1.toList ++ '.' ::
      (h2.toList ++ '/' :: owner.toList ++ '/' :: slug.toList ++ '.' ::
        ('g' :: 'i' :: 't' :: suffix.toList))))
    (['/','/'] ++ h1.toList)
    ((h2.toList ++ '/' :: owner.toList ++ '/' :: slug.toList) ++ '.' ::
      ('g' :: 'i' :: 't' :: suffix.toList))
    '.' (by simp) (by simp; exact hd1)
  rw [jsSplitAux_append '.' _ _ [] (by simp; exact ⟨hd2, hd3, hd4⟩)] at hps
  rw [jsSplitAux_no_sep '.' _ [] (by simp; exact hd5)] at hps
  simp only [List.reverse_nil, List.nil_append] at hps
  have hqs := jsSplit_cons_of_toList
    (String.mk (h2.toList ++ '/' :: owner.toList ++ '/' :: slug.toList))
    h2.toList (owner.toList ++ '/' :: slug.toList) '/' (by simp [string_toList_mk]) he2
  rw [jsSplitAux_append '/' owner.toList slug.toList [] he3] at hqs
  rw [jsSplitAux_no_sep '/' slug.toList [] he4] at hqs
  simp only [List.reverse_nil, List.nil_append, string_mk_toList] at hqs
  rw [get_name_from_url, hss]
  simp only [List.getD_cons_zero, beq_self_eq_true, if_true, List.get?_cons_succ,
    List.get?_cons_zero]
  rw [hps]
  simp only [List.get?_cons_succ, List.get?_cons_zero, List.getD_cons_succ,
    List.getD_cons_zero]
  have hpre : jsStartsWith (String.mk ('g' :: 'i' :: 't' :: suffix.toList)) "git" = true := by
    rw [jsStartsWith]
    exact List.isPrefixOf_iff_prefix.mpr (List.prefix_append ['g','i','t'] suffix.toList)
  rw [hpre]
  simp only [if_pos rfl]
  simp at hqs
  simp [hqs]

/-- Witness for C7 (amended) at the spec's example URL with a branch suffix. -/
theorem get_name_from_url_wellformed_witness :
    get_name_from_url "https://github.com/Owner/some-ext.git#dev" =
      NameResult.ok "some-ext" := by
  have h := get_name_from_url_wellformed "github" "com" "Owner" "some-ext" "#dev"
    (by decide) (by decide) (by decide) (by decide) (by decide)
    (by decide) (by decide) (by decide) (by decide) (by decide)
    (by decide) (by decide) (by decide)
  have he : ("https://github.com/Owner/some-ext.git#dev" : String) =
      "https://" ++ "github" ++ "." ++ "com" ++ "/" ++ "Owner" ++ "/" ++ "some-ext"
        ++ ".git" ++ "#dev" := by decide
  rw [he]
  exact h.1
/-! ## Update queries (`_query_updates`) -/

/-- JS object assignment `m[k] = v` on an insertion-ordered map: overwrite
in place when the key exists, otherwise append. -/
def jsSet {α : Type} (m : List (String × α)) (k : String) (v : α) : List (String × α) :=
  if m.any (fun e => e.1 == k) then
    m.map (fun e => if e.1 == k then (k, v) else e)
  else m ++ [(k, v)]

/-- JS object read `m[k]`: `none` embeds `undefined` (key absent). -/
def jsGet {α : Type} (m : List (String × α)) (k : String) : Option α :=
  (m.find? (fun e => e.1 == k)).map (fun e => e.2)

/-- Drops empty segments that are not the final one; used to embed the
run-collapsing behaviour of the regex split below. -/
def dropMidEmpties : List String → List String
  | [] => []
  | [a] => [a]
  | a :: b :: rest =>
    if a = "" then dropMidEmpties (b :: rest) else a :: dropMidEmpties (b :: rest)

/-- JS `s.split(/[ ]+/)`: split on maximal runs of spaces; a leading or
trailing run still contributes one empty boundary segment. -/
def jsSplitSpaces (s : String) : List String :=
  match jsSplit s ' ' with
  | [] => []
  | a :: rest => a :: dropMidEmpties rest

/-- Embeds the `npm outdated` stdout parsing loop of `_query_updates`:
`for (let i = 1; i < lines.length && lines[i]; i++)` over the lines after
the header, stopping at the first empty line; each kept line contributes
`fields[0] -> fields[2]` to both the callback results and `updates_list`
when the name is in the repository index. -/
def parse_outdated_lines (inRepo : String → Bool) :
    List String → List (String × Option String) → List (String × Option String) →
    List (String × Option String) × List (String × Option String)
  | [], results, ul => (results, ul)
  | l :: rest, results, ul =>
    if l = "" then (results, ul)
    else
      if inRepo ((jsSplitSpaces l).getD 0 "") then
        parse_outdated_lines inRepo rest
          (jsSet results ((jsSplitSpaces l).getD 0 "") ((jsSplitSpaces l).get? 2))
          (jsSet ul ((jsSplitSpaces l).getD 0 "") ((jsSplitSpaces l).get? 2))
      else parse_outdated_lines inRepo rest results ul

/-- Embeds the npm portion of `_query_updates` (the docker portion writes to
the same maps beforehand and is independent): on stderr output the query
fails and nothing is recorded; on stdout output the outdated table is
parsed; on no output at all the fallback treats the scoped name (or every
installed npm extension) as updatable at its installed version. Returns the
npm-contributed callback results and the new `updates_list`. -/
def query_updates_npm (scope : Option String) (stdout stderr : String)
    (npm_installed : List (String × String)) (inRepo : String → Bool)
    (ul : List (String × Option String)) :
    List (String × Option String) × List (String × Option String) :=
  if stderr != "" then ([], ul)
  else if stdout != "" then
    parse_outdated_lines inRepo ((jsSplit stdout '\n').drop 1) [] ul
  else
    match scope with
    | some n => (jsSet [] n (jsGet npm_installed n), jsSet ul n (jsGet npm_installed n))
    | none =>
      npm_installed.foldl (fun acc e =>
        (jsSet acc.1 e.1 (some e.2), jsSet acc.2 e.1 (some e.2))) ([], ul)

theorem jsGet_jsSet_self {α : Type} (m : List (String × α)) (k : String) (v : α) :
    jsGet (jsSet m k v) k = some v := by
  induction m with
  | nil =>
    rw [jsSet]
    simp [jsGet]
  | cons e rest ih =>
    by_cases he : e.1 = k
    · have hbe : (e.1 == k) = true := beq_iff_eq.mpr he
      have hany : ((e :: rest).any (fun x => x.1 == k)) = true := by
        simp [List.any_cons, hbe]
      rw [jsSet, if_pos hany, List.map_cons]
      simp only [hbe, if_true]
      rw [jsGet, List.find?_cons_of_pos _ (by simp)]
      rfl
    · have hbe : (e.1 == k) = false := beq_eq_false_iff_ne.mpr he
      rcases hr : rest.any (fun x => x.1 == k) with _ | _
      · have hany : ¬(((e :: rest).any (fun x => x.1 == k)) = true) := by
          simp [List.any_cons, hbe, hr]
        rw [jsSet, if_neg hany, List.cons_append, jsGet,
          List.find?_cons_of_neg _ (by simp [hbe])]
        have ih2 := ih
        rw [jsSet, if_neg (by simp [hr])] at ih2
        rw [jsGet] at ih2
        exact ih2
      · have hany : ((e :: rest).any (fun x => x.1 == k)) = true := by
          simp [List.any_cons, hr]
        rw [jsSet, if_pos hany, List.map_cons]
        simp only [hbe, Bool.false_eq_true, if_false]
        rw [jsGet, List.find?_cons_of_neg _ (by simp [hbe])]
        have ih2 := ih
        rw [jsSet, if_pos hr] at ih2
        rw [jsGet] at ih2
        exact ih2

/-- C8: for a scoped update query, when the package backend's outdated
command produces no output at all (and no error), the tracker unconditionally
records the scoped name in the update advertisement with its installed
version as the wanted version, and hands exactly that one entry to the
callback — even though the backend reported nothing outdated. -/
theorem query_updates_scoped_fallback (n v : String)
    (npm_installed : List (String × String)) (inRepo : String → Bool)
    (ul : List (String × Option String))
    (hn : jsGet npm_installed n = some v) :
    (query_updates_npm (some n) "" "" npm_installed inRepo ul).1 = [(n, some v)] ∧
    jsGet (query_updates_npm (some n) "" "" npm_installed inRepo ul).2 n = some (some v) := by
  constructor
  · simp [query_updates_npm, jsSet, hn]
  · simp only [query_updates_npm]
    rw [if_neg (by simp), if_neg (by simp), hn]
    exact jsGet_jsSet_self ul n (some v)

/-- Witness for C8 at a concrete installed map. -/
theorem query_updates_scoped_fallback_witness :
    (query_updates_npm (some "x") "" "" [("x", "1.0")] (fun _ => true) []).1 =
      [("x", some "1.0")] ∧
    jsGet (query_updates_npm (some "x") "" "" [("x", "1.0")] (fun _ => true) []).2 "x" =
      some (some "1.0") := by
  exact query_updates_scoped_fallback "x" "1.0" [("x", "1.0")] (fun _ => true) []
    (by decide)
/-! ## Uninstall bookkeeping (`_uninstall`, `_unregister_version`, `_stop`,
the runner exit handler of `_start`) -/

/-- JS `delete m[k]`. -/
def jsErase {α : Type} (m : List (String × α)) (k : String) : List (String × α) :=
  m.filter (fun e => !(e.1 == k))

theorem jsGet_cons_of_neg {α : Type} (e : String × α) (rest : List (String × α))
    (k : String) (h : (e.1 == k) = false) : jsGet (e :: rest) k = jsGet rest k := by
  rw [jsGet, List.find?_cons_of_neg _ (by simp [h]), jsGet]

theorem jsGet_cons_of_pos {α : Type} (e : String × α) (rest : List (String × α))
    (k : String) (h : (e.1 == k) = true) : jsGet (e :: rest) k = some e.2 := by
  rw [jsGet, List.find?_cons_of_pos _ (by simp [h])]
  rfl

theorem jsGet_jsErase_self {α : Type} (m : List (String × α)) (k : String) :
    jsGet (jsErase m k) k = none := by
  induction m with
  | nil => rfl
  | cons e rest ih =>
    rcases hb : (e.1 == k) with _ | _
    · rw [jsErase, List.filter_cons]
      simp only [hb, Bool.not_false, if_true]
      rw [jsGet_cons_of_neg _ _ _ hb]
      rw [jsErase] at ih
      exact ih
    · rw [jsErase, List.filter_cons]
      simp only [hb, Bool.not_true, Bool.false_eq_true, if_false]
      rw [jsErase] at ih
      exact ih

theorem jsGet_jsErase_ne {α : Type} (m : List (String × α)) (k m' : String)
    (h : m' ≠ k) : jsGet (jsErase m k) m' = jsGet m m' := by
  induction m with
  | nil => rfl
  | cons e rest ih =>
    rcases hb : (e.1 == k) with _ | _
    · rw [jsErase, List.filter_cons]
      simp only [hb, Bool.not_false, if_true]
      rcases hb' : (e.1 == m') with _ | _
      · rw [jsGet_cons_of_neg _ _ _ hb', jsGet_cons_of_neg _ _ _ hb']
        rw [jsErase] at ih
        exact ih
      · rw [jsGet_cons_of_pos _ _ _ hb', jsGet_cons_of_pos _ _ _ hb']
    · rw [jsErase, List.filter_cons]
      simp only [hb, Bool.not_true, Bool.false_eq_true, if_false]
      have hbe : e.1 = k := beq_iff_eq.mp hb
      have hb' : (e.1 == m') = false :=
        beq_eq_false_iff_ne.mpr (hbe ▸ fun hh => h hh.symm)
      rw [jsGet_cons_of_neg _ _ _ hb']
      rw [jsErase] at ih
      exact ih

/-- A `logs_list` value: an open log file descriptor or JS `null`
(descriptor temporarily detached; remembered for resume). -/
inductive LogVal where
  | openFd (fd : Nat)
  | nullFd
  deriving Repr, DecidableEq

/-- JS truthiness of `logs_list[name]`: an open descriptor number is truthy
unless it is 0 (`openSync` never returns 0 while stdin is open); `null` and
absent are falsy. -/
def logTruthy (v : Option LogVal) : Bool :=
  match v with
  | some (LogVal.openFd fd) => fd != 0
  | some LogVal.nullFd => false
  | none => false

/-- The three per-name maps C9 is about: `npm_installed`, `updates_list`
and `logs_list`. -/
structure TrackerState where
  npm_installed : List (String × String)
  updates_list : List (String × Option String)
  logs_list : List (String × LogVal)
  deriving Repr, DecidableEq

/-- Embeds the npm path of an Uninstall job's completion: `_stop(name, true)`
runs first — when a runner is active, the instance is running and the name
is not the manager, the runner's exit handler fires with `user` set, closing
and deleting the log entry if its descriptor is truthy — then
`npm uninstall -g` runs and `_unregister_version` deletes the
`npm_installed` and `updates_list` entries (only for npm-installed names);
`_unregister_version` never touches `logs_list`. -/
def uninstall_npm (st : TrackerState) (name : String) (running runnerActive : Bool) :
    TrackerState :=
  let st1 := if runnerActive && running && (name != MANAGER_NAME) &&
      logTruthy (jsGet st.logs_list name) then
      { st with logs_list := jsErase st.logs_list name }
    else st
  if (jsGet st1.npm_installed name).isSome then
    { st1 with npm_installed := jsErase st1.npm_installed name,
               updates_list := jsErase st1.updates_list name }
  else st1

/-- Counterexample to C9: uninstalling a stopped npm extension whose log
registration is a detached (`null`) entry completes with the log-registration
entry still present, because `_unregister_version` never deletes from
`logs_list` and the stop path only deletes truthy (open) descriptors. -/
theorem uninstall_npm_counterexample :
    jsGet (uninstall_npm ⟨[("x", "1.0")], [("x", some "1.1")], [("x", LogVal.nullFd)]⟩
      "x" false true).logs_list "x" = some LogVal.nullFd ∧
    some LogVal.nullFd ≠ (none : Option LogVal) := by
  exact ⟨by decide, by decide⟩

/-- C9 (amended): when an Uninstall job for an npm-installed, non-manager
name completes (runner active), the installed-state and update-advertisement
maps drop that name's entries while every other name's entries in all three
maps are untouched; the log-registration entry is removed only when the
extension was running with an open (truthy) log descriptor — a detached or
absent entry is left as it was. -/
theorem uninstall_npm_frame (st : TrackerState) (name : String) (running : Bool)
    (v : String) (hv : jsGet st.npm_installed name = some v)
    (hM : name ≠ MANAGER_NAME) :
    jsGet (uninstall_npm st name running true).npm_installed name = none ∧
    jsGet (uninstall_npm st name running true).updates_list name = none ∧
    ((uninstall_npm st name running true).logs_list =
      if running && logTruthy (jsGet st.logs_list name) then
        jsErase st.logs_list name
      else st.logs_list) ∧
    (∀ m, m ≠ name →
      jsGet (uninstall_npm st name running true).npm_installed m =
        jsGet st.npm_installed m ∧
      jsGet (uninstall_npm st name running true).updates_list m =
        jsGet st.updates_list m ∧
      jsGet (uninstall_npm st name running true).logs_list m =
        jsGet st.logs_list m) := by
  have hbne : (name != MANAGER_NAME) = true := by
    simp only [bne_iff_ne, ne_eq]
    exact hM
  have hres : uninstall_npm st name running true =
      (if running && logTruthy (jsGet st.logs_list name) then
        { st with npm_installed := jsErase st.npm_installed name,
                  updates_list := jsErase st.updates_list name,
                  logs_list := jsErase st.logs_list name }
       else
        { st with npm_installed := jsErase st.npm_installed name,
                  updates_list := jsErase st.updates_list name }) := by
    unfold uninstall_npm
    simp only [hbne, Bool.true_and, Bool.and_true]
    rcases hc : (running && logTruthy (jsGet st.logs_list name)) with _ | _
    · simp only [hc, Bool.false_eq_true, if_false, hv, Option.isSome_some, if_true]
    · simp only [hc, if_true, hv, Option.isSome_some]
  rw [hres]
  rcases hc : (running && logTruthy (jsGet st.logs_list name)) with _ | _
  · simp only [hc, Bool.false_eq_true, if_false]
    refine ⟨jsGet_jsErase_self _ _, jsGet_jsErase_self _ _, trivial, ?_⟩
    intro m hm
    exact ⟨jsGet_jsErase_ne _ _ _ hm, jsGet_jsErase_ne _ _ _ hm, trivial⟩
  · simp only [hc, if_true]
    refine ⟨jsGet_jsErase_self _ _, jsGet_jsErase_self _ _, trivial, ?_⟩
    intro m hm
    exact ⟨jsGet_jsErase_ne _ _ _ hm, jsGet_jsErase_ne _ _ _ hm,
      jsGet_jsErase_ne _ _ _ hm⟩

/-- Witness for C9 (amended) at a concrete state. -/
theorem uninstall_npm_frame_witness :
    jsGet (uninstall_npm ⟨[("x", "1.0"), ("y", "2.0")], [("x", some "1.1")],
      [("x", LogVal.openFd 5)]⟩ "x" true true).npm_installed "x" = none ∧
    jsGet (uninstall_npm ⟨[("x", "1.0"), ("y", "2.0")], [("x", some "1.1")],
      [("x", LogVal.openFd 5)]⟩ "x" true true).npm_installed "y" = some "2.0" := by
  have h := uninstall_npm_frame ⟨[("x", "1.0"), ("y", "2.0")], [("x", some "1.1")],
    [("x", LogVal.openFd 5)]⟩ "x" true "1.0" (by decide) (by decide)
  exact ⟨h.1, ((h.2.2.2 "y" (by decide)).1).trans (by decide)⟩

/-! ## Idleness query (`is_idle`) -/

/-- JS truthiness of the optional `name` argument: `undefined` and the empty
string are falsy. -/
def jsTruthyName (name : Option String) : Bool :=
  match name with
  | some s => s != ""
  | none => false

/-- Embeds `is_idle`:
`name ? !action_queue[name] : !Object.keys(action_queue).length`. -/
def is_idle (q : Queue) (name : Option String) : Bool :=
  if jsTruthyName name then !(hasAction q (name.getD "")) else q.isEmpty

/-- Counterexample to C10: called with the empty string as name argument on
a non-empty queue with no entry for the empty string, `is_idle` returns
`false` (JS treats the empty string as a missing argument and falls back to
the whole-queue check), while no action is pending for that name. -/
theorem is_idle_counterexample :
    is_idle [("a", mkAction ACTION_INSTALL)] (some "") = false ∧
    hasAction [("a", mkAction ACTION_INSTALL)] "" = false := by
  exact ⟨by decide, by decide⟩

/-- C10 (amended): for every non-empty name, the idleness query returns true
iff no action is pending for that name; with no argument it returns true iff
the whole queue is empty; the empty-string name falls back to the whole-queue
check. The query is a pure function of the queue and modifies nothing. -/
theorem is_idle_spec (q : Queue) (n : String) :
    (n ≠ "" → (is_idle q (some n) = true ↔ hasAction q n = false)) ∧
    (is_idle q none = true ↔ q = []) ∧
    is_idle q (some "") = q.isEmpty := by
  refine ⟨?_, ?_, ?_⟩
  · intro hn
    have ht : jsTruthyName (some n) = true := by
      simp [jsTruthyName, bne_iff_ne, hn]
    rw [is_idle, if_pos ht]
    simp [Option.getD, Bool.not_eq_true']
  · rw [is_idle]
    simp [jsTruthyName, List.isEmpty_iff]
  · rw [is_idle]
    simp [jsTruthyName]

/-- Witness for C10 (amended) at concrete queues. -/
theorem is_idle_spec_witness :
    (is_idle [("a", mkAction ACTION_INSTALL)] (some "b") = true) ∧
    (is_idle ([] : Queue) none = true) := by
  have h := is_idle_spec [("a", mkAction ACTION_INSTALL)] "b"
  have h2 := is_idle_spec ([] : Queue) "b"
  exact ⟨(h.1 (by decide)).mpr (by decide), (h2.2.1).mpr rfl⟩
